import Mathlib

/-!
# Verification of the preferences editor widget

A shallow embedding of
`src/packages/preferences/src/browser/views/preference-editor-widget.tsx`
(`PreferencesEditorWidget`): the tree-to-row flattening (`doUpdateRows`),
the scope/display event handlers, the scroll-to and scroll-reporting logic,
and the after-first-render callback queue, together with theorems checking
the specification's claims about them.

Parts of the repository that the widget uses but that are not included in
`src/` (the `Iterators.depthFirst` tree iterator, `TreeNode.isVisible`,
the `Preference.Branch` / `SelectedScopeDetails` types from the preferences
utilities, the `ReactWidget.onRender` queue, and the host's
`String.localeCompare`) are modelled from the specification; each such
definition carries a doc comment saying so.
-/

/-- A node of the preference display tree.  Modelled from the spec:
the tree types live in `@theia/core` and `../util/preference-types`, which
are not part of `src/`.  Per the spec's data model a node is polymorphic
over `Branch` (a category with child branches, leaf settings, and a
visibility flag) and `Leaf` (a single addressable setting with a visibility
flag); the display root is a plain composite node whose children are
visited in existing order (`doUpdateRows`'s `else if (node.children)` arm),
so it is kept as a third constructor. -/
inductive PNode where
  | branch (id : String) (visible : Bool) (children : List PNode) (leaves : List PNode)
  | composite (id : String) (visible : Bool) (children : List PNode)
  | leaf (id : String) (visible : Bool)

/-- The node's identifier (`node.id`). -/
def PNode.id : PNode → String
  | .branch i _ _ _ => i
  | .composite i _ _ => i
  | .leaf i _ => i

/-- The node's visibility flag (`node.visible`, also `TreeNode.isVisible`,
which is modelled from the spec as reading the visibility flag). -/
def PNode.visible : PNode → Bool
  | .branch _ v _ _ => v
  | .composite _ v _ => v
  | .leaf _ v => v

/-- `CompositeTreeNode.is(node)`: the node has a `children` collection.
Modelled from the spec: branches and plain composite nodes group children;
leaves are single addressable settings. -/
def PNode.isComposite : PNode → Bool
  | .leaf _ _ => false
  | _ => true

/-- `Preference.Branch.is(node)`.  Modelled from the spec: a `Branch` is a
category node grouping child branches and leaf settings. -/
def PNode.isBranch : PNode → Bool
  | .branch _ _ _ _ => true
  | _ => false

/-- Stable insertion of `x` into `l`: `x` goes in front of the first
element it is strictly below.  Together with `sortBy` this models
`Array.prototype.sort`, which is a stable comparison sort. -/
def insertBy {α : Type} (lt : α → α → Bool) (x : α) : List α → List α
  | [] => [x]
  | h :: t => if lt h x then h :: insertBy lt x t else x :: h :: t

/-- Stable sort by the strict comparator `lt`; models the
`.sort((a, b) => this.sort(a.id, b.id))` call in `doUpdateRows`. -/
def sortBy {α : Type} (lt : α → α → Bool) : List α → List α
  | [] => []
  | x :: xs => insertBy lt x (sortBy lt xs)

/-- Lower-casing of an ASCII character, used by the comparator model. -/
def lowerChar (c : Char) : Char :=
  if 65 ≤ c.toNat && c.toNat ≤ 90 then Char.ofNat (c.toNat + 32) else c

/-- Strict lexicographic order on character lists by code point. -/
def lexLt : List Char → List Char → Bool
  | [], [] => false
  | [], _ :: _ => true
  | _ :: _, [] => false
  | a :: as, b :: bs =>
    if a.toNat < b.toNat then true
    else if b.toNat < a.toNat then false
    else lexLt as bs

/-- The collation key of a string: its characters with punctuation removed
(only letters and digits kept) and case folded. -/
def collationKey (s : String) : List Char :=
  (s.data.filter (fun c => c.isAlpha || c.isDigit)).map lowerChar

/-- Modelled from the spec: the widget's `sort(a, b)` delegates to the
host's `a.localeCompare(b, undefined, { ignorePunctuation: true })`, a
locale-aware comparison that ignores punctuation.  It is modelled as the
lexicographic comparison of the strings' collation keys (punctuation
stripped, case folded); `localeCompareLt a b` holds when the comparison
returns a negative number. -/
def localeCompareLt (a b : String) : Bool :=
  lexLt (collationKey a) (collationKey b)

/-- The children a node contributes to the traversal, from the callback
passed to `Iterators.depthFirst` in `doUpdateRows`: at a `Preference.Branch`
the child branches concatenated with the leaf settings, sorted by id with
the widget's comparator; at any other node with children, the children in
their existing order (`node.children.map(child => child)`); none at a
leaf. -/
def childrenOf (lt : String → String → Bool) : PNode → List PNode
  | .branch _ _ cs ls => sortBy (fun a b => lt a.id b.id) (cs ++ ls)
  | .composite _ _ cs => cs
  | .leaf _ _ => []

theorem sizeOf_insertBy {α : Type} [SizeOf α] (lt : α → α → Bool) (x : α) (l : List α) :
    sizeOf (insertBy lt x l) = 1 + sizeOf x + sizeOf l := by
  induction l with
  | nil => simp [insertBy]
  | cons h t ih => simp only [insertBy]; split <;> simp [ih, List.cons.sizeOf_spec] <;> omega

theorem sizeOf_sortBy {α : Type} [SizeOf α] (lt : α → α → Bool) (l : List α) :
    sizeOf (sortBy lt l) = sizeOf l := by
  induction l with
  | nil => rfl
  | cons h t ih => simp [sortBy, sizeOf_insertBy, ih]

theorem sizeOf_append_sum {α : Type} [SizeOf α] (l₁ l₂ : List α) :
    sizeOf (l₁ ++ l₂) + 1 = sizeOf l₁ + sizeOf l₂ := by
  induction l₁ with
  | nil => simp; omega
  | cons h t ih => simp; omega

theorem sizeOf_childrenOf (lt : String → String → Bool) (n : PNode) :
    sizeOf (childrenOf lt n) < sizeOf n := by
  cases n with
  | branch i v cs ls =>
    simp only [childrenOf, sizeOf_sortBy, PNode.branch.sizeOf_spec]
    have := sizeOf_append_sum cs ls
    omega
  | composite i v cs => simp [childrenOf]
  | leaf i v => simp [childrenOf]

/-- Induction over lists of nodes that follows the traversal: a property
holds of every node list once it holds of `[]` and is preserved when a
node (with its traversal children) is prepended. -/
theorem nodeList_induct (lt : String → String → Bool) (P : List PNode → Prop)
    (hnil : P [])
    (hcons : ∀ n rest, P (childrenOf lt n) → P rest → P (n :: rest)) :
    ∀ l, P l := by
  have key : ∀ k l, sizeOf l ≤ k → P l := by
    intro k
    induction k with
    | zero =>
      intro l hl
      cases l with
      | nil => exact hnil
      | cons n rest => simp [List.cons.sizeOf_spec] at hl
    | succ k ih =>
      intro l hl
      cases l with
      | nil => exact hnil
      | cons n rest =>
        have hn := sizeOf_childrenOf lt n
        have hsz : sizeOf (n :: rest) = 1 + sizeOf n + sizeOf rest := by
          simp [List.cons.sizeOf_spec]
        exact hcons n rest (ih _ (by omega)) (ih _ (by omega))
  exact fun l => key (sizeOf l) l (Nat.le_refl _)

/-- A row of the flattened tree, `TreeWidget.NodeRow`: its position in the
virtualized list, the node it renders, and its indentation depth. -/
structure NodeRow where
  index : Nat
  node : PNode
  depth : Nat

/-- The depth assigned to a node in `doUpdateRows`:
`parentDepth === undefined ? 0 : TreeNode.isVisible(node.parent) ? parentDepth + 1 : parentDepth`,
where `entry` is the depth recorded for the parent (if any) and `pvis` is
the parent's visibility. -/
def rowDepth (entry : Option Nat) (pvis : Bool) : Nat :=
  match entry with
  | none => 0
  | some d => if pvis then d + 1 else d

/-- The depth entry the children of `n` find for their parent: the code
records `depths.set(node, depth)` only for a visible composite node, so an
invisible or non-composite node leaves no entry. -/
def childEntry (entry : Option Nat) (pvis : Bool) (n : PNode) : Option Nat :=
  if n.visible && n.isComposite then some (rowDepth entry pvis) else none

/-- The row-building loop of `doUpdateRows` over the depth-first traversal
of a node list: `entry` is the depth recorded for the nodes' parent (the
`depths` map is keyed by object identity, so a node's lookup returns
exactly what was recorded when its parent was processed, realized here by
passing the parent's entry down the recursion), `pvis` the parent's
visibility, and `idx` the running row index.  A visible node is emitted as
a row `(node.id, { index, node, depth })` and bumps the index; the node's
traversal children are processed next (depth first), then the remaining
siblings. -/
def updateRowsList (lt : String → String → Bool) (entry : Option Nat) (pvis : Bool) :
    List PNode → Nat → List (String × NodeRow) × Nat
  | [], idx => ([], idx)
  | n :: rest, idx =>
    let init : List (String × NodeRow) × Nat :=
      if n.visible then ([(n.id, ⟨idx, n, rowDepth entry pvis⟩)], idx + 1) else ([], idx)
    let childRes := updateRowsList lt (childEntry entry pvis n) n.visible (childrenOf lt n) init.2
    let restRes := updateRowsList lt entry pvis rest childRes.2
    (init.1 ++ childRes.1 ++ restRes.1, restRes.2)
termination_by l => sizeOf l
decreasing_by
  · have := sizeOf_childrenOf lt n
    simp only [List.cons.sizeOf_spec]; omega
  · simp only [List.cons.sizeOf_spec]; omega

/-- `doUpdateRows`: with no current display tree the row mapping is empty;
otherwise the traversal starts at the root, whose parent is `undefined`
(no recorded depth, not visible).  The mapping is kept as the association
list `rowsToUpdate` in emission order, which is the insertion order of the
`Map` the code builds from it. -/
def doUpdateRows (lt : String → String → Bool) (currentDisplay : Option PNode) :
    List (String × NodeRow) :=
  match currentDisplay with
  | none => []
  | some root => (updateRowsList lt none false [root] 0).1

/-- `Map.prototype.get` on the mapping built from the row pairs: the value
of the last pair with the given key, `undefined` when there is none. -/
def mapGet (l : List (String × NodeRow)) (k : String) : Option NodeRow :=
  l.foldl (fun acc p => if p.1 = k then some p.2 else acc) none

/-- Modelled from the spec: the row list produced by `Iterators.depthFirst`
(from `@theia/core`, not part of `src/`) — a depth-first pre-order
traversal using `childrenOf` that, per the spec, descends into invisible
nodes (they are pruned from the emitted rows, not from the descent, so
that depth is still computed for their visible descendants). -/
def depthFirstList (lt : String → String → Bool) : List PNode → List PNode
  | [] => []
  | n :: rest => n :: (depthFirstList lt (childrenOf lt n) ++ depthFirstList lt rest)
termination_by l => sizeOf l
decreasing_by
  · have := sizeOf_childrenOf lt n
    simp only [List.cons.sizeOf_spec]; omega
  · simp only [List.cons.sizeOf_spec]; omega

/-- The first `n` indices starting at `s`. -/
def consec (s : Nat) : Nat → List Nat
  | 0 => []
  | k + 1 => s :: consec (s + 1) k

theorem consec_append (s a b : Nat) : consec s (a + b) = consec s a ++ consec (s + a) b := by
  induction a generalizing s with
  | zero => simp [consec]
  | succ a ih =>
    have : s + (a + 1) = (s + 1) + a := by omega
    simp [Nat.succ_add, consec, ih, this]

theorem consec_eq_range' (s n : Nat) : consec s n = List.range' s n := by
  induction n generalizing s with
  | zero => rfl
  | succ n ih => simp [consec, List.range'_succ, ih]

theorem updateRowsList_nil (lt : String → String → Bool) (entry : Option Nat) (pvis : Bool)
    (idx : Nat) : updateRowsList lt entry pvis [] idx = ([], idx) := by
  simp [updateRowsList]

theorem depthFirstList_nil (lt : String → String → Bool) : depthFirstList lt [] = [] := by
  simp [depthFirstList]

/-- The nodes, identifiers, and indices of the rows built by the
`doUpdateRows` loop: the rows hold exactly the visible nodes of the
depth-first traversal, in traversal order, with consecutive indices
starting at the running index. -/
theorem updateRowsList_spec (lt : String → String → Bool) :
    ∀ l : List PNode, ∀ entry : Option Nat, ∀ pvis : Bool, ∀ idx : Nat,
      ((updateRowsList lt entry pvis l idx).1.map (fun p => p.2.node) =
          (depthFirstList lt l).filter (fun n => n.visible))
      ∧ ((updateRowsList lt entry pvis l idx).1.map (fun p => p.1) =
          ((depthFirstList lt l).filter (fun n => n.visible)).map PNode.id)
      ∧ ((updateRowsList lt entry pvis l idx).1.map (fun p => p.2.index) =
          consec idx ((depthFirstList lt l).filter (fun n => n.visible)).length)
      ∧ ((updateRowsList lt entry pvis l idx).2 =
          idx + ((depthFirstList lt l).filter (fun n => n.visible)).length) := by
  intro l
  induction l using nodeList_induct lt with
  | hnil =>
    intro entry pvis idx
    simp [updateRowsList_nil, depthFirstList_nil, consec]
  | hcons n rest ihc ihr =>
    intro entry pvis idx
    rw [updateRowsList, depthFirstList]
    by_cases hv : n.visible = true
    · obtain ⟨hc1, hc2, hc3, hc4⟩ := ihc (childEntry entry pvis n) n.visible (idx + 1)
      obtain ⟨hr1, hr2, hr3, hr4⟩ := ihr entry pvis
        (idx + 1 + ((depthFirstList lt (childrenOf lt n)).filter (fun n => n.visible)).length)
      simp only [hv] at hc1 hc2 hc3 hc4
      simp only [hv, if_true, List.filter_cons, List.filter_append, List.map_append,
        List.map_cons, List.length_append, List.length_cons, List.map_nil]
      rw [hc4, hc1, hc2, hc3, hr1, hr2, hr3, hr4]
      refine ⟨rfl, rfl, ?_, by omega⟩
      have hlen : ((depthFirstList lt (childrenOf lt n)).filter (fun n => n.visible)).length +
          ((depthFirstList lt rest).filter (fun n => n.visible)).length + 1 =
          (((depthFirstList lt (childrenOf lt n)).filter (fun n => n.visible)).length +
            ((depthFirstList lt rest).filter (fun n => n.visible)).length) + 1 := rfl
      rw [hlen]
      simp only [consec, consec_append]
      simp
    · simp only [Bool.not_eq_true] at hv
      obtain ⟨hc1, hc2, hc3, hc4⟩ := ihc (childEntry entry pvis n) n.visible idx
      obtain ⟨hr1, hr2, hr3, hr4⟩ := ihr entry pvis
        (idx + ((depthFirstList lt (childrenOf lt n)).filter (fun n => n.visible)).length)
      simp only [hv] at hc1 hc2 hc3 hc4
      simp only [hv, Bool.false_eq_true, if_false, List.filter_cons, List.filter_append,
        List.map_append, List.length_append, List.nil_append]
      rw [hc4, hc1, hc2, hc3, hr1, hr2, hr3, hr4]
      refine ⟨rfl, by simp, ?_, by omega⟩
      rw [consec_append]

theorem childrenOf_of_not_composite (lt : String → String → Bool) (n : PNode)
    (h : n.isComposite = false) : childrenOf lt n = [] := by
  cases n with
  | branch i v cs ls => simp [PNode.isComposite] at h
  | composite i v cs => simp [PNode.isComposite] at h
  | leaf i v => rfl

/-- The depth the amended depth rule assigns under parent context
`pdepth`: one more than the parent's depth when the parent is visible
(`pdepth = some d`), zero when the parent is invisible or missing
(`pdepth = none`). -/
def specDepth (pdepth : Option Nat) : Nat :=
  match pdepth with
  | none => 0
  | some d => d + 1

/-- The amended depth rule as a recursive specification: every visible
node's row carries `specDepth pdepth`; the children of a visible node see
their parent's depth (`some`), the children of an invisible node see
`none` (so their depth restarts at zero — an invisible parent never has a
recorded depth). -/
def specDepthRows (lt : String → String → Bool) (pdepth : Option Nat) :
    List PNode → List (String × Nat)
  | [] => []
  | n :: rest =>
    (if n.visible then [(n.id, specDepth pdepth)] else [])
      ++ specDepthRows lt (if n.visible then some (specDepth pdepth) else none) (childrenOf lt n)
      ++ specDepthRows lt pdepth rest
termination_by l => sizeOf l
decreasing_by
  · have := sizeOf_childrenOf lt n
    simp only [List.cons.sizeOf_spec]; omega
  · simp only [List.cons.sizeOf_spec]; omega

theorem specDepthRows_nil (lt : String → String → Bool) (pdepth : Option Nat) :
    specDepthRows lt pdepth [] = [] := by
  simp [specDepthRows]

/-- The depths computed by the `doUpdateRows` loop coincide with the
amended depth rule, for every parent context the loop can reach (a depth
entry is only ever recorded for a visible parent, so `pvis = false`
forces `entry = none`). -/
theorem updateRowsList_depths (lt : String → String → Bool) :
    ∀ l : List PNode, ∀ entry : Option Nat, ∀ pvis : Bool, ∀ idx : Nat,
      (pvis = false → entry = none) →
      (updateRowsList lt entry pvis l idx).1.map (fun p => (p.1, p.2.depth)) =
        specDepthRows lt (if pvis then entry else none) l := by
  intro l
  induction l using nodeList_induct lt with
  | hnil =>
    intro entry pvis idx hinv
    simp [updateRowsList_nil, specDepthRows_nil]
  | hcons n rest ihc ihr =>
    intro entry pvis idx hinv
    rw [updateRowsList, specDepthRows]
    have hdepth : rowDepth entry pvis = specDepth (if pvis then entry else none) := by
      cases pvis with
      | false => rw [hinv rfl]; rfl
      | true => cases entry <;> rfl
    by_cases hv : n.visible = true
    · have hchild :
          (updateRowsList lt (childEntry entry pvis n) n.visible (childrenOf lt n)
              (idx + 1)).1.map (fun p => (p.1, p.2.depth)) =
            specDepthRows lt (if n.visible then some (specDepth (if pvis then entry else none))
              else none) (childrenOf lt n) := by
        by_cases hcomp : n.isComposite = true
        · have := ihc (childEntry entry pvis n) n.visible (idx + 1)
            (by intro hvf; rw [hv] at hvf; exact absurd hvf (by simp))
          rw [this, hv]
          simp [childEntry, hv, hcomp, hdepth]
        · simp only [Bool.not_eq_true] at hcomp
          rw [childrenOf_of_not_composite lt n hcomp]
          simp [updateRowsList_nil, specDepthRows_nil]
      have hrest := ihr entry pvis
        (updateRowsList lt (childEntry entry pvis n) n.visible (childrenOf lt n) (idx + 1)).2 hinv
      simp only [hv, if_true, List.map_append, List.map_cons, List.map_nil] at hchild hrest ⊢
      rw [hchild, hrest, hdepth]
    · simp only [Bool.not_eq_true] at hv
      have hchild :
          (updateRowsList lt (childEntry entry pvis n) n.visible (childrenOf lt n) idx).1.map
              (fun p => (p.1, p.2.depth)) =
            specDepthRows lt none (childrenOf lt n) := by
        have := ihc (childEntry entry pvis n) n.visible idx
          (by intro _; simp [childEntry, hv])
        rw [this, hv]
        simp
      have hrest := ihr entry pvis
        (updateRowsList lt (childEntry entry pvis n) n.visible (childrenOf lt n) idx).2 hinv
      simp only [hv, Bool.false_eq_true, if_false, List.map_append, List.nil_append] at hchild hrest ⊢
      rw [hchild, hrest]

/-- Claim C1: the row mapping produced by `doUpdateRows` contains exactly
the nodes marked visible, in depth-first traversal order — at a `Branch`
the visited descendants are its child branches concatenated with its leaf
settings sorted by identifier with the modelled locale-aware,
punctuation-ignoring comparison, at any other node with children the
children in their existing order (both captured by `depthFirstList`) —
and each visible node is assigned the next consecutive index starting
from 0. -/
theorem preferences_c1_rows_exactly_visible_in_order (root : PNode) :
    ((doUpdateRows localeCompareLt (some root)).map (fun p => p.2.node) =
        (depthFirstList localeCompareLt [root]).filter (fun n => n.visible))
    ∧ ((doUpdateRows localeCompareLt (some root)).map (fun p => p.2.index) =
        List.range (doUpdateRows localeCompareLt (some root)).length)
    ∧ (∀ m : PNode, (∃ p ∈ doUpdateRows localeCompareLt (some root), p.2.node = m) ↔
        (m ∈ depthFirstList localeCompareLt [root] ∧ m.visible = true)) := by
  obtain ⟨h1, _h2, h3, _h4⟩ := updateRowsList_spec localeCompareLt [root] none false 0
  have hrows : doUpdateRows localeCompareLt (some root) =
      (updateRowsList localeCompareLt none false [root] 0).1 := rfl
  have hlen : (updateRowsList localeCompareLt none false [root] 0).1.length =
      ((depthFirstList localeCompareLt [root]).filter (fun n => n.visible)).length := by
    rw [← h1, List.length_map]
  refine ⟨by rw [hrows, h1], ?_, ?_⟩
  · rw [hrows, h3, hlen, consec_eq_range', List.range_eq_range']
  · intro m
    constructor
    · rintro ⟨p, hp, hpm⟩
      have : m ∈ (doUpdateRows localeCompareLt (some root)).map (fun p => p.2.node) :=
        List.mem_map.mpr ⟨p, hp, hpm⟩
      rw [hrows, h1] at this
      exact List.mem_filter.mp this
    · intro hm
      have : m ∈ (depthFirstList localeCompareLt [root]).filter (fun n => n.visible) :=
        List.mem_filter.mpr hm
      rw [← h1, ← hrows] at this
      obtain ⟨p, hp, hpm⟩ := List.mem_map.mp this
      exact ⟨p, hp, hpm⟩

/-- Claim C2, amended: a row's depth is the parent's depth plus one when
the parent is visible; when the parent is invisible (or the node is the
root, whose parent is absent) the parent has no recorded depth and the
row's depth is 0 — it does not inherit the nearest visible ancestor's
depth.  Formally: the `(id, depth)` projection of the rows equals the
recursive amended rule `specDepthRows`. -/
theorem preferences_c2_depth_amended (root : PNode) :
    (doUpdateRows localeCompareLt (some root)).map (fun p => (p.1, p.2.depth)) =
      specDepthRows localeCompareLt none [root] := by
  have := updateRowsList_depths localeCompareLt [root] none false 0 (fun _ => rfl)
  simpa using this

/-- The tree refuting claim C2's inherited-depth clause: visible root `A`,
visible child `B`, invisible grandchild `C`, visible great-grandchild
`D`. -/
def exTreeDepth : PNode :=
  .composite "A" true [.composite "B" true [.composite "C" false [.leaf "D" true]]]

/-- Claim C2, counterexample: in `exTreeDepth`, the visible node `D` has
the invisible parent `C`, whose nearest visible ancestor `B` has row depth
1 — yet `D`'s row depth is 0, not 1, because an invisible parent never has
a recorded depth.  The claim's inherited-depth clause is false on this
tree. -/
theorem preferences_c2_counterexample :
    ((mapGet (doUpdateRows localeCompareLt (some exTreeDepth)) "B").map NodeRow.depth = some 1)
    ∧ ((mapGet (doUpdateRows localeCompareLt (some exTreeDepth)) "D").map NodeRow.depth = some 0)
    ∧ ¬ ((mapGet (doUpdateRows localeCompareLt (some exTreeDepth)) "D").map NodeRow.depth =
        some 1) := by
  have : doUpdateRows localeCompareLt (some exTreeDepth) =
      [("A", ⟨0, .composite "A" true [.composite "B" true [.composite "C" false [.leaf "D" true]]],
          0⟩),
        ("B", ⟨1, .composite "B" true [.composite "C" false [.leaf "D" true]], 1⟩),
        ("D", ⟨2, .leaf "D" true, 0⟩)] := by
    simp [doUpdateRows, updateRowsList, childrenOf, exTreeDepth, PNode.visible, PNode.id,
      PNode.isComposite, rowDepth, childEntry]
  rw [this]
  simp [mapGet]


/-- A fuel-indexed, structurally recursive twin of `updateRowsList`, used
to evaluate the flattening on concrete trees; `updateRowsListF_eq` shows
it agrees with `updateRowsList` whenever the fuel covers the list's
size. -/
def updateRowsListF (lt : String → String → Bool) :
    Nat → Option Nat → Bool → List PNode → Nat → List (String × NodeRow) × Nat
  | 0, _, _, _, idx => ([], idx)
  | _ + 1, _, _, [], idx => ([], idx)
  | fuel + 1, entry, pvis, n :: rest, idx =>
    let init : List (String × NodeRow) × Nat :=
      if n.visible then ([(n.id, ⟨idx, n, rowDepth entry pvis⟩)], idx + 1) else ([], idx)
    let childRes :=
      updateRowsListF lt fuel (childEntry entry pvis n) n.visible (childrenOf lt n) init.2
    let restRes := updateRowsListF lt fuel entry pvis rest childRes.2
    (init.1 ++ childRes.1 ++ restRes.1, restRes.2)

theorem updateRowsListF_eq (lt : String → String → Bool) :
    ∀ l : List PNode, ∀ entry : Option Nat, ∀ pvis : Bool, ∀ idx fuel : Nat,
      sizeOf l ≤ fuel →
      updateRowsListF lt fuel entry pvis l idx = updateRowsList lt entry pvis l idx := by
  intro l
  induction l using nodeList_induct lt with
  | hnil =>
    intro entry pvis idx fuel hf
    cases fuel with
    | zero => simp [updateRowsListF, updateRowsList_nil]
    | succ f => simp [updateRowsListF, updateRowsList_nil]
  | hcons n rest ihc ihr =>
    intro entry pvis idx fuel hf
    have hsz : sizeOf (n :: rest) = 1 + sizeOf n + sizeOf rest := by
      simp [List.cons.sizeOf_spec]
    have hc := sizeOf_childrenOf lt n
    cases fuel with
    | zero => omega
    | succ f =>
      rw [updateRowsList]
      simp only [updateRowsListF]
      rw [ihc (childEntry entry pvis n) n.visible _ f (by omega),
        ihr entry pvis _ f (by omega)]

theorem doUpdateRows_eval (lt : String → String → Bool) (root : PNode) :
    doUpdateRows lt (some root) = (updateRowsListF lt (sizeOf [root]) none false [root] 0).1 := by
  rw [updateRowsListF_eq lt [root] none false 0 (sizeOf [root]) (Nat.le_refl _)]
  rfl

/-- The example tree of claim C3: root `Branch "general"` with leaf
setting `"editor.fontSize"` and child branch `"general.appearance"`
holding leaf setting `"editor.theme"`, all visible. -/
def generalBranch : PNode :=
  .branch "general" true
    [.branch "general.appearance" true [] [.leaf "editor.theme" true]]
    [.leaf "editor.fontSize" true]

/-- Claim C3, counterexample: `"appearance"` does sort before
`"fontSize"`, so the claim predicts the row order
`[general, general.appearance, editor.theme, editor.fontSize]` — but the
code sorts the descendants by their full identifiers, and
`"editor.fontSize"` sorts before `"general.appearance"`, so flattening
`generalBranch` actually yields
`[general, editor.fontSize, general.appearance, editor.theme]`. -/
theorem preferences_c3_counterexample :
    localeCompareLt "appearance" "fontSize" = true
    ∧ ((doUpdateRows localeCompareLt (some generalBranch)).map (fun p => p.1) =
        ["general", "editor.fontSize", "general.appearance", "editor.theme"])
    ∧ ¬ ((doUpdateRows localeCompareLt (some generalBranch)).map (fun p => p.1) =
        ["general", "general.appearance", "editor.theme", "editor.fontSize"]) := by
  rw [doUpdateRows_eval]
  refine ⟨by decide, by decide, by decide⟩

/-- Claim C3, amended: the sort compares the full identifiers of a
branch's descendants, and the leaf-versus-sub-branch interleaving is
determined by that comparison rather than by tree definition order: with
the widget's comparator `"editor.fontSize"` sorts before
`"general.appearance"` and the rows are
`[general, editor.fontSize, general.appearance, editor.theme]`; with the
reversed comparator the rows are
`[general, general.appearance, editor.theme, editor.fontSize]` even
though the tree definition lists the sub-branch before the leaf. -/
theorem preferences_c3_amended :
    localeCompareLt "editor.fontSize" "general.appearance" = true
    ∧ ((doUpdateRows localeCompareLt (some generalBranch)).map (fun p => p.1) =
        ["general", "editor.fontSize", "general.appearance", "editor.theme"])
    ∧ ((doUpdateRows (fun a b => localeCompareLt b a) (some generalBranch)).map (fun p => p.1) =
        ["general", "general.appearance", "editor.theme", "editor.fontSize"]) := by
  refine ⟨by decide, ?_, ?_⟩
  · rw [doUpdateRows_eval]
    decide
  · rw [doUpdateRows_eval]
    decide

/-- Modelled from the spec: `Preference.SelectedScopeDetails` (from
`../util/preference-types`, not in `src/`) — the spec's `ScopeSelection`:
a scope enum value, the target URI, and the isFolder flag.  The widget's
string-to-number and string-to-boolean conversions of the wire form are
absorbed by typing the fields directly. -/
structure SelectedScopeDetails where
  scope : Nat
  uri : String
  isFolder : Bool

/-- The mutable fields of `PreferencesEditorWidget` that the claims are
about: the property map, the current display tree, the active scope
fields, the scroll position of the widget's node, the first-render flag
with its callback queue (callbacks are identified by tokens; `executed`
logs the runs in order), and whether a re-render has been requested
(`this.update()`). -/
structure WidgetState where
  properties : List (String × String)
  currentDisplay : Option PNode
  activeScope : Nat
  activeURI : String
  activeScopeIsFolder : Bool
  scrollTop : ℚ
  hasRendered : Bool
  pendingRenderCallbacks : List Nat
  executedCallbacks : List Nat
  updateRequested : Bool

/-- `handleChangeScope` (reached through the `preferenceScope` setter):
stores the scope, URI, and folder flag into the widget's fields and
requests a re-render via `this.update()`.  It touches nothing else. -/
def handleChangeScope (details : SelectedScopeDetails) (st : WidgetState) : WidgetState :=
  { st with
    activeScope := details.scope
    activeURI := details.uri
    activeScopeIsFolder := details.isFolder
    updateRequested := true }

/-- `handleChangeDisplay(didGenerateNewTree)`: when the tree provider
regenerated the tree, replace the current display tree and the property
map from the provider together and reset the scroll position to the top,
then request a re-render; otherwise only request a re-render. -/
def handleChangeDisplay (providerTree : Option PNode) (providerProps : List (String × String))
    (didGenerateNewTree : Bool) (st : WidgetState) : WidgetState :=
  if didGenerateNewTree then
    { st with
      currentDisplay := providerTree
      properties := providerProps
      scrollTop := 0
      updateRequested := true }
  else
    { st with updateRequested := true }

/-- Claim C4: setting `preferenceScope` updates the active scope, URI and
folder-flag fields and requests a re-render, but leaves the scroll
position unchanged, does not touch the display tree or the property map,
and the rows recomputed from the unchanged tree are equal to the previous
rows. -/
theorem preferences_c4_scope_change (details : SelectedScopeDetails) (st : WidgetState) :
    (handleChangeScope details st).activeScope = details.scope
    ∧ (handleChangeScope details st).activeURI = details.uri
    ∧ (handleChangeScope details st).activeScopeIsFolder = details.isFolder
    ∧ (handleChangeScope details st).updateRequested = true
    ∧ (handleChangeScope details st).scrollTop = st.scrollTop
    ∧ (handleChangeScope details st).currentDisplay = st.currentDisplay
    ∧ (handleChangeScope details st).properties = st.properties
    ∧ doUpdateRows localeCompareLt (handleChangeScope details st).currentDisplay =
        doUpdateRows localeCompareLt st.currentDisplay := by
  refine ⟨rfl, rfl, rfl, rfl, rfl, rfl, rfl, rfl⟩

/-- Claim C5: on a display-change notification with a regenerated tree the
widget takes the tree and the property map from the provider together,
resets the scroll position to the top, and requests a re-render; without
regeneration it only requests a re-render and leaves tree, properties,
and scroll position unchanged. -/
theorem preferences_c5_display_change (providerTree : Option PNode)
    (providerProps : List (String × String)) (st : WidgetState) :
    ((handleChangeDisplay providerTree providerProps true st).currentDisplay = providerTree
      ∧ (handleChangeDisplay providerTree providerProps true st).properties = providerProps
      ∧ (handleChangeDisplay providerTree providerProps true st).scrollTop = 0
      ∧ (handleChangeDisplay providerTree providerProps true st).updateRequested = true)
    ∧ ((handleChangeDisplay providerTree providerProps false st).currentDisplay =
          st.currentDisplay
      ∧ (handleChangeDisplay providerTree providerProps false st).properties = st.properties
      ∧ (handleChangeDisplay providerTree providerProps false st).scrollTop = st.scrollTop
      ∧ (handleChangeDisplay providerTree providerProps false st).updateRequested = true) := by
  refine ⟨⟨rfl, rfl, rfl, rfl⟩, rfl, rfl, rfl, rfl⟩

/-- `callAfterFirstRender(callback)`: run the callback immediately when
the widget has already rendered once, otherwise push it onto the
`onRender` queue. -/
def callAfterFirstRender (cb : Nat) (st : WidgetState) : WidgetState :=
  if st.hasRendered then
    { st with executedCallbacks := st.executedCallbacks ++ [cb] }
  else
    { st with pendingRenderCallbacks := st.pendingRenderCallbacks ++ [cb] }

/-- Modelled from the spec: completion of the first render disposes the
`ReactWidget.onRender` queue (from `@theia/core`, not in `src/`) — per the
spec, actions queued before the first render run once, immediately, in
registration order, after it; the queue is emptied so they never run
again, and the first-render flag is set. -/
def completeFirstRender (st : WidgetState) : WidgetState :=
  { st with
    hasRendered := true
    executedCallbacks := st.executedCallbacks ++ st.pendingRenderCallbacks
    pendingRenderCallbacks := [] }

/-- Registration of a batch of callbacks through `callAfterFirstRender`,
in order. -/
def registerAll (cbs : List Nat) (st : WidgetState) : WidgetState :=
  cbs.foldl (fun s c => callAfterFirstRender c s) st

theorem registerAll_not_rendered :
    ∀ cbs : List Nat, ∀ st : WidgetState, st.hasRendered = false →
      registerAll cbs st =
        { st with pendingRenderCallbacks := st.pendingRenderCallbacks ++ cbs } := by
  intro cbs
  induction cbs with
  | nil => intro st h; simp [registerAll]
  | cons c cbs ih =>
    intro st h
    have hstep : callAfterFirstRender c st =
        { st with pendingRenderCallbacks := st.pendingRenderCallbacks ++ [c] } := by
      simp [callAfterFirstRender, h]
    have : registerAll (c :: cbs) st = registerAll cbs (callAfterFirstRender c st) := rfl
    rw [this, hstep, ih _ (by simp [h])]
    simp

/-- Claim C10: callbacks registered through `callAfterFirstRender` before
the first render are deferred (none runs at registration), run exactly
once after the first render in registration order (the queue is emptied,
and a later render completion changes nothing), while a callback
registered after the first render runs immediately and synchronously. -/
theorem preferences_c10_render_queue (st st₂ : WidgetState) (cbs : List Nat) (cb : Nat)
    (h : st.hasRendered = false) (h₂ : st₂.hasRendered = true) :
    (registerAll cbs st).executedCallbacks = st.executedCallbacks
    ∧ (registerAll cbs st).pendingRenderCallbacks = st.pendingRenderCallbacks ++ cbs
    ∧ (completeFirstRender (registerAll cbs st)).executedCallbacks =
        st.executedCallbacks ++ (st.pendingRenderCallbacks ++ cbs)
    ∧ (completeFirstRender (registerAll cbs st)).pendingRenderCallbacks = []
    ∧ completeFirstRender (completeFirstRender (registerAll cbs st)) =
        completeFirstRender (registerAll cbs st)
    ∧ callAfterFirstRender cb st₂ =
        { st₂ with executedCallbacks := st₂.executedCallbacks ++ [cb] } := by
  rw [registerAll_not_rendered cbs st h]
  refine ⟨rfl, rfl, rfl, rfl, by simp [completeFirstRender], by simp [callAfterFirstRender, h₂]⟩

/-- A concrete unrendered widget state used by witnesses. -/
def stUnrendered : WidgetState :=
  ⟨[("k", "v")], none, 1, "file:///u", false, 5, false, [10], [0], false⟩

/-- A concrete already-rendered widget state used by witnesses. -/
def stRendered : WidgetState :=
  ⟨[], none, 2, "", true, 3, true, [], [4], true⟩

/-- Witness for claim C10 at concrete states: callbacks `[1, 2]` queued
before the first render run once after it, after the already-pending
callback `10`, and callback `7` registered on a rendered state runs
immediately. -/
theorem preferences_c10_witness :
    (registerAll [1, 2] stUnrendered).executedCallbacks = stUnrendered.executedCallbacks
    ∧ (registerAll [1, 2] stUnrendered).pendingRenderCallbacks =
        stUnrendered.pendingRenderCallbacks ++ [1, 2]
    ∧ (completeFirstRender (registerAll [1, 2] stUnrendered)).executedCallbacks =
        stUnrendered.executedCallbacks ++ (stUnrendered.pendingRenderCallbacks ++ [1, 2])
    ∧ (completeFirstRender (registerAll [1, 2] stUnrendered)).pendingRenderCallbacks = []
    ∧ completeFirstRender (completeFirstRender (registerAll [1, 2] stUnrendered)) =
        completeFirstRender (registerAll [1, 2] stUnrendered)
    ∧ callAfterFirstRender 7 stRendered =
        { stRendered with executedCallbacks := stRendered.executedCallbacks ++ [7] } :=
  preferences_c10_render_queue stUnrendered stRendered [1, 2] 7 rfl rfl

/-- The DOM id the widget derives for a node's rendered editor element:
`` `${nodeID}-editor` ``. -/
def editorElementId (nodeID : String) : String := nodeID ++ "-editor"

/-- The externally visible effect of one `scrollToEditorElement` call:
scroll an existing element into view, or ask the virtualization viewport
to scroll to a row index and then retry the element lookup once
(`retryFound` records whether the retried lookup succeeded, in which case
the found element is scrolled into view), or do nothing at all. -/
inductive ScrollAction where
  | scrollIntoView (elementId : String)
  | scrollToRowThenRetry (rowIndex : Nat) (retryFound : Bool)
  | noop
deriving DecidableEq

/-- `scrollToEditorElement(nodeID)`: an empty identifier does nothing;
otherwise, when the derived editor element exists in the DOM (`dom`), it
is scrolled into view directly; otherwise the identifier is looked up in
the row mapping and, when found, the viewport is asked to scroll to the
row's index and the element lookup is retried once against the DOM as it
is after the scroll (`domAfterScroll`); when the identifier is absent
from the rows, nothing happens.  The call mutates no widget state in the
source, so the embedding returns only the action. -/
def scrollToEditorElement (dom domAfterScroll : String → Bool)
    (rows : List (String × NodeRow)) (nodeID : String) : ScrollAction :=
  if nodeID = "" then .noop
  else if dom (editorElementId nodeID) then .scrollIntoView (editorElementId nodeID)
  else
    match mapGet rows nodeID with
    | some row => .scrollToRowThenRetry row.index (domAfterScroll (editorElementId nodeID))
    | none => .noop

/-- Claim C6: for a (nonempty, see C7 for the empty case) identifier whose
derived editor element is present in the DOM, scroll-to scrolls that
element into view directly, and the row mapping is not consulted — the
result is the same for any two row mappings. -/
theorem preferences_c6_direct_scroll (dom domA : String → Bool)
    (rows rows' : List (String × NodeRow)) (nodeID : String)
    (hne : nodeID ≠ "") (hdom : dom (editorElementId nodeID) = true) :
    scrollToEditorElement dom domA rows nodeID = .scrollIntoView (editorElementId nodeID)
    ∧ scrollToEditorElement dom domA rows nodeID =
        scrollToEditorElement dom domA rows' nodeID := by
  constructor
  · simp [scrollToEditorElement, hne, hdom]
  · simp [scrollToEditorElement, hne, hdom]

/-- A DOM in which only the element `"a-editor"` exists. -/
def domOnlyA : String → Bool := fun s => s == "a-editor"

/-- An empty DOM. -/
def domEmpty : String → Bool := fun _ => false

/-- A one-row mapping for the node `"a"` at index 3. -/
def rowsOnlyA : List (String × NodeRow) := [("a", ⟨3, .leaf "a" true, 0⟩)]

/-- Witness for claim C6: with `"a-editor"` present in the DOM, scroll-to
for `"a"` scrolls it into view and ignores the row mapping. -/
theorem preferences_c6_witness :
    scrollToEditorElement domOnlyA domEmpty rowsOnlyA "a" = .scrollIntoView "a-editor"
    ∧ scrollToEditorElement domOnlyA domEmpty rowsOnlyA "a" =
        scrollToEditorElement domOnlyA domEmpty [] "a" :=
  preferences_c6_direct_scroll domOnlyA domEmpty rowsOnlyA [] "a" (by decide) (by decide)

/-- Claim C7: for an identifier whose derived editor element is absent
from the DOM — when the (nonempty) identifier is in the row mapping, the
viewport is asked to scroll to that row's index and the element lookup is
retried exactly once (against the post-scroll DOM); when the identifier
is empty or absent from the row mapping the call silently does nothing
(and a failed retry is likewise absorbed into the fire-and-forget
action). -/
theorem preferences_c7_viewport_scroll (dom domA : String → Bool)
    (rows : List (String × NodeRow)) (nodeID : String) (row : NodeRow)
    (hdom : dom (editorElementId nodeID) = false) :
    (nodeID ≠ "" → mapGet rows nodeID = some row →
      scrollToEditorElement dom domA rows nodeID =
        .scrollToRowThenRetry row.index (domA (editorElementId nodeID)))
    ∧ (nodeID = "" → scrollToEditorElement dom domA rows nodeID = .noop)
    ∧ (nodeID ≠ "" → mapGet rows nodeID = none →
      scrollToEditorElement dom domA rows nodeID = .noop) := by
  refine ⟨?_, ?_, ?_⟩
  · intro hne hmap
    simp [scrollToEditorElement, hne, hdom, hmap]
  · intro he
    simp [scrollToEditorElement, he]
  · intro hne hmap
    simp [scrollToEditorElement, hne, hdom, hmap]

/-- Witness for claim C7 at concrete inputs: with no `"a-editor"` element,
scroll-to for `"a"` (present at row index 3) scrolls the viewport to index
3 and the retry against the still-empty DOM fails silently; scroll-to for
the empty identifier and for the absent identifier `"zz"` do nothing. -/
theorem preferences_c7_witness :
    scrollToEditorElement domEmpty domEmpty rowsOnlyA "a" =
      .scrollToRowThenRetry 3 false
    ∧ scrollToEditorElement domEmpty domEmpty rowsOnlyA "" = .noop
    ∧ scrollToEditorElement domEmpty domEmpty rowsOnlyA "zz" = .noop := by
  refine ⟨?_, ?_, ?_⟩
  · exact (preferences_c7_viewport_scroll domEmpty domEmpty rowsOnlyA "a"
      ⟨3, .leaf "a" true, 0⟩ rfl).1 (by decide) (by simp [mapGet, rowsOnlyA])
  · exact (preferences_c7_viewport_scroll domEmpty domEmpty rowsOnlyA ""
      ⟨3, .leaf "a" true, 0⟩ rfl).2.1 rfl
  · exact (preferences_c7_viewport_scroll domEmpty domEmpty rowsOnlyA "zz"
      ⟨3, .leaf "a" true, 0⟩ rfl).2.2 (by decide) (by simp [mapGet, rowsOnlyA])

/-- What `render` shows inside the scroll container: the virtualized list
when there is at least one row, else the no-results announcement
(`renderNoResultMessage`). -/
inductive RenderChoice where
  | virtualizedList
  | noResults
deriving DecidableEq

/-- The `rows.length > 0` ternary in `render`. -/
def renderChoice (rows : List (String × NodeRow)) : RenderChoice :=
  if rows.length > 0 then .virtualizedList else .noResults

/-- Claim C8: with no current display tree, or with a display tree none of
whose traversed nodes is visible, the computed row list is empty and
`render` shows the no-results placeholder instead of the virtualized
list; the functions are total, so no failure is surfaced. -/
theorem preferences_c8_no_results (display : Option PNode)
    (h : display = none ∨ ∃ root, display = some root ∧
      (depthFirstList localeCompareLt [root]).all (fun n => !n.visible) = true) :
    doUpdateRows localeCompareLt display = []
    ∧ renderChoice (doUpdateRows localeCompareLt display) = .noResults := by
  have hrows : doUpdateRows localeCompareLt display = [] := by
    rcases h with h | ⟨root, hd, hall⟩
    · rw [h]; rfl
    · rw [hd]
    
      obtain ⟨h1, _, _, _⟩ := updateRowsList_spec localeCompareLt [root] none false 0
      have hfil : (depthFirstList localeCompareLt [root]).filter (fun n => n.visible) = [] := by
        rw [List.filter_eq_nil]
        intro a ha
        have := List.all_eq_true.mp hall a ha
        simp at this
        simp [this]
      have : (updateRowsList localeCompareLt none false [root] 0).1.map
          (fun p => p.2.node) = [] := by rw [h1, hfil]
      have hmap := List.map_eq_nil.mp this
      exact hmap
  exact ⟨hrows, by rw [hrows]; rfl⟩

/-- Witness for claim C8: the empty display and a display tree whose two
nodes are both invisible yield no rows and the no-results placeholder. -/
theorem preferences_c8_witness :
    (doUpdateRows localeCompareLt none = []
      ∧ renderChoice (doUpdateRows localeCompareLt none) = .noResults)
    ∧ (doUpdateRows localeCompareLt (some (.composite "root" false [.leaf "x" false])) = []
      ∧ renderChoice (doUpdateRows localeCompareLt
          (some (.composite "root" false [.leaf "x" false]))) = .noResults) := by
  constructor
  · exact preferences_c8_no_results none (Or.inl rfl)
  · refine preferences_c8_no_results (some (.composite "root" false [.leaf "x" false]))
      (Or.inr ⟨.composite "root" false [.leaf "x" false], rfl, ?_⟩)
    simp [depthFirstList, childrenOf, PNode.visible]

/-- A rendered virtualized list element as the scroll handler sees it: its
offset from the top of the scroll container, its height, and the
`data-id` attribute of its first child (absent when the rendered row
carries no identifier).  Geometry is modelled over `ℚ` (the host's
IEEE-754 numbers carry exact small integers, and the `0.7` factor becomes
the exact `7/10`). -/
structure ViewElement where
  offsetTop : ℚ
  offsetHeight : ℚ
  dataId : Option String
deriving DecidableEq

/-- `compare(value).isBetween(a, b)`:
`(value >= a && value <= b) || (value >= b && value <= a)`. -/
def isBetween (value a b : ℚ) : Bool :=
  decide ((a ≤ value ∧ value ≤ b) ∨ (b ≤ value ∧ value ≤ a))

/-- `isInView(e, parent)`: the element's top edge lies within the
viewport's visible band `[scrollTop, scrollTop + parent.offsetHeight]`,
or the viewport's top lies within the top 70 % of the element
(`[e.offsetTop, e.offsetTop + e.offsetHeight * 0.7]`). -/
def isInView (scrollTop parentHeight : ℚ) (e : ViewElement) : Bool :=
  isBetween e.offsetTop scrollTop (scrollTop + parentHeight) ||
  isBetween scrollTop e.offsetTop (e.offsetTop + e.offsetHeight * (7 / 10))

/-- `addFirstVisibleChildId`: walk the grid's children in order until one
is in view and carries a `data-id`; the loop stops at the first pushed
identifier (`!array.length`), and an in-view element without a `data-id`
is passed over. -/
def addFirstVisibleChildId (scrollTop parentHeight : ℚ) :
    List ViewElement → Option String
  | [] => none
  | e :: rest =>
    if isInView scrollTop parentHeight e then
      match e.dataId with
      | some elemId => some elemId
      | none => addFirstVisibleChildId scrollTop parentHeight rest
    else addFirstVisibleChildId scrollTop parentHeight rest

/-- `onScroll`: determine whether the container is scrolled to the very
top (`scrollTop === 0`) and the first visible child's identifier; when
one exists, fire `onEditorScroll` with that identifier and the top flag
(no event is fired otherwise). -/
def onScroll (scrollTop parentHeight : ℚ) (elems : List ViewElement) :
    Option (String × Bool) :=
  match addFirstVisibleChildId scrollTop parentHeight elems with
  | some firstId => some (firstId, decide (scrollTop = 0))
  | none => none

/-- Claim C9: on a scroll event over rendered rows that all carry
identifiers, the published event holds the identifier of the first
element satisfying the geometric in-view test together with the
viewport-at-top flag `scrollTop = 0`; when no element is in view, no
event is published. -/
theorem preferences_c9_scroll_report (scrollTop parentHeight : ℚ)
    (elems : List ViewElement) (e : ViewElement) (elemId : String)
    (hall : ∀ x ∈ elems, x.dataId.isSome = true) :
    (elems.find? (fun x => isInView scrollTop parentHeight x) = some e →
      e.dataId = some elemId →
      onScroll scrollTop parentHeight elems = some (elemId, decide (scrollTop = 0)))
    ∧ (elems.find? (fun x => isInView scrollTop parentHeight x) = none →
      onScroll scrollTop parentHeight elems = none) := by
  induction elems with
  | nil =>
    refine ⟨?_, ?_⟩
    · intro hfind
      simp at hfind
    · intro _
      rfl
  | cons x rest ih =>
    have hx : x.dataId.isSome = true := hall x (by simp)
    have hallr : ∀ y ∈ rest, y.dataId.isSome = true := fun y hy => hall y (by simp [hy])
    obtain ⟨ih1, ih2⟩ := ih hallr
    by_cases hin : isInView scrollTop parentHeight x = true
    · refine ⟨?_, ?_⟩
      · intro hfind hid
        rw [List.find?_cons_of_pos _ hin] at hfind
        have hex : x = e := by injection hfind
        rw [hex] at hin
        simp only [onScroll, addFirstVisibleChildId, hex, hin, if_true, hid]
      · intro hfind
        rw [List.find?_cons_of_pos _ hin] at hfind
        simp at hfind
    · have hinf : isInView scrollTop parentHeight x = false := by
        simpa using hin
      refine ⟨?_, ?_⟩
      · intro hfind hid
        rw [List.find?_cons_of_neg _ (by simp [hinf])] at hfind
        have := ih1 hfind hid
        simpa only [onScroll, addFirstVisibleChildId, hinf, Bool.false_eq_true, if_false]
          using this
      · intro hfind
        rw [List.find?_cons_of_neg _ (by simp [hinf])] at hfind
        have := ih2 hfind
        simpa only [onScroll, addFirstVisibleChildId, hinf, Bool.false_eq_true, if_false]
          using this

/-- Two concrete rendered rows: `"r1"` covering offsets 0–10 and `"r2"`
covering offsets 10–20. -/
def elemsTwoRows : List ViewElement := [⟨0, 10, some "r1"⟩, ⟨10, 10, some "r2"⟩]

/-- Witness for claim C9: with the viewport at the very top of a
20-high container, the first row in view is `"r1"` and the event carries
`isTop = true`; with the viewport scrolled past both rows' bands
(height 2, scrollTop 50), no event fires. -/
theorem preferences_c9_witness :
    onScroll 0 20 elemsTwoRows = some ("r1", true)
    ∧ onScroll 50 2 elemsTwoRows = none := by
  constructor
  · have h := (preferences_c9_scroll_report 0 20 elemsTwoRows ⟨0, 10, some "r1"⟩ "r1"
      (by intro x hx; fin_cases hx <;> rfl)).1
    have hfind : elemsTwoRows.find? (fun x => isInView 0 20 x) = some ⟨0, 10, some "r1"⟩ := by
      simp [elemsTwoRows, List.find?, isInView, isBetween]
    simpa using h hfind rfl
  · have h := (preferences_c9_scroll_report 50 2 elemsTwoRows ⟨0, 10, some "r1"⟩ "r1"
      (by intro x hx; fin_cases hx <;> rfl)).2
    have hfind : elemsTwoRows.find? (fun x => isInView 50 2 x) = none := by
      simp [elemsTwoRows, List.find?, isInView, isBetween]
      norm_num
    exact h hfind
